import Mathlib

/-!
Verification development for the Neoprene/Byzantine exact-real comparison
library.  The Rust sources are embedded shallowly: `BigUint` becomes `Nat`,
`isize` becomes `Int`, in-place mutation becomes functions returning the
updated value, and operations whose Rust counterpart can `panic!` or hit
`todo!` return `Option` (with `none` for the aborting paths) where a claim
depends on that behaviour.  Unless noted otherwise each definition is a
direct transcription of the function of the same name in `src/`.
-/

set_option maxRecDepth 10000

namespace NeopreneByzantine

/-! ## src/rational.rs : gcd and lcm -/

/-- The Euclid `while` loop of `gcd` in rational.rs
(`while b > 0 { temp = a; temp %= b; a = b; b = temp }`), written with an
explicit fuel argument so that the definition is structurally recursive and
reduces inside the kernel.  Each pass strictly decreases `b`, so fuel `b + 1`
is always sufficient. -/
def gcdLoop : Nat → Nat → Nat → Nat
  | 0, a, _ => a
  | _ + 1, a, 0 => a
  | fuel + 1, a, b => gcdLoop fuel b (a % b)

/-- `gcd` from rational.rs: early-exit on equal arguments, swap so the loop
starts with `a ≥ b`, then the Euclid loop. -/
def rgcd (a b : Nat) : Nat :=
  if a = b then a
  else if b > a then gcdLoop (a + 1) b a
  else gcdLoop (b + 1) a b

/-- `lcm` from rational.rs: `b = b_r / gcd(a_r, b_r); b *= a_r`. -/
def rlcm (a b : Nat) : Nat :=
  if a = b then a
  else (b / rgcd a b) * a

theorem gcdLoop_eq_gcd : ∀ fuel a b, b < fuel → gcdLoop fuel a b = Nat.gcd b a := by
  intro fuel
  induction fuel with
  | zero => intro a b h; omega
  | succ n ih =>
    intro a b h
    match b with
    | 0 => simp [gcdLoop, Nat.gcd]
    | c + 1 =>
      have hm : a % (c + 1) < c + 1 := Nat.mod_lt _ (by omega)
      rw [gcdLoop, ih (c + 1) (a % (c + 1)) (by omega)]
      · simp [Nat.gcd_succ]
      · omega

theorem rgcd_eq_gcd (a b : Nat) : rgcd a b = Nat.gcd a b := by
  unfold rgcd
  by_cases hab : a = b
  · simp [hab]
  · simp only [if_neg hab]
    by_cases h : b > a
    · rw [if_pos h, gcdLoop_eq_gcd _ b a (by omega), Nat.gcd_comm]
    · rw [if_neg h, gcdLoop_eq_gcd _ a b (by omega), Nat.gcd_comm]

theorem rlcm_eq_lcm (a b : Nat) : rlcm a b = Nat.lcm a b := by
  unfold rlcm
  by_cases hab : a = b
  · simp [hab, Nat.lcm_self]
  · rw [if_neg hab, rgcd_eq_gcd, Nat.lcm,
      Nat.mul_div_assoc a (Nat.gcd_dvd_right a b), Nat.mul_comm]

/-! ## src/rational.rs : Sign and Rational -/

/-- `Sign` from rational.rs. -/
inductive Sign where
  | Pos
  | Neg
deriving DecidableEq, Repr

/-- `BitXor for Sign`. -/
def Sign.bxor : Sign → Sign → Sign
  | .Pos, .Pos => .Pos
  | .Neg, .Neg => .Pos
  | _, _ => .Neg

/-- `Not for Sign`. -/
def Sign.bnot : Sign → Sign
  | .Pos => .Neg
  | .Neg => .Pos

/-- `Rational` from rational.rs: a sign together with a `BigUint` numerator
and denominator, both embedded as `Nat`. -/
structure Rational where
  sign : Sign
  numer : Nat
  denom : Nat
deriving DecidableEq, Repr

namespace Rational

/-- `Rational::simplify`: divide numerator and denominator by their gcd
(skipped when the gcd is already 1).  The Rust function then panics when the
resulting denominator is zero; that abort path is not modelled — every
theorem below that relies on `simplify` carries a positive-denominator
hypothesis instead. -/
def simplify (q : Rational) : Rational :=
  let g := rgcd q.numer q.denom
  if g ≠ 1 then { q with numer := q.numer / g, denom := q.denom / g }
  else q

/-- `Rational::new`: construct and simplify. -/
def new (sign : Sign) (numer denom : Nat) : Rational :=
  simplify { sign := sign, numer := numer, denom := denom }

/-- `From<isize> for Rational`: note that `i.is_positive()` is false for 0,
so the conversion of 0 carries sign `Neg`; no simplification happens. -/
def fromInt (i : Int) : Rational :=
  { sign := if 0 < i then .Pos else .Neg
    numer := i.natAbs
    denom := 1 }

/-- `From<(isize, isize)> for Rational`: sign from the xor of the
positivity tests, magnitudes taken verbatim, no simplification. -/
def fromPair (a b : Int) : Rational :=
  { sign := if (decide (0 < a)).xor (decide (0 < b)) then .Neg else .Pos
    numer := a.natAbs
    denom := b.natAbs }

/-- `Rational::zero()` = `Rational::from(0)`. -/
def zero : Rational := fromInt 0

/-- `Rational::one()` = `Rational::from(1)`. -/
def one : Rational := fromInt 1

/-- `Rational::is_zero`. -/
def is_zero (q : Rational) : Bool := q.numer = 0

/-- `Rational::is_one`. -/
def is_one (q : Rational) : Bool := q.numer ≠ 0 && q.numer = q.denom

/-- `Rational::negate`. -/
def negate (q : Rational) : Rational := { q with sign := q.sign.bnot }

/-- `Rational::invert`: swap numerator and denominator.  The Rust function
panics on a zero numerator; theorems that use `invert` carry that
hypothesis. -/
def invert (q : Rational) : Rational :=
  { q with numer := q.denom, denom := q.numer }

/-- `Rational::powi`: exponent 0 gives one, exponent 1 is the identity,
an even exponent forces the sign positive, numerator and denominator are
powered componentwise (no re-simplification).  The Rust function panics for
exponents above 12 (or not fitting a `u32`); theorems bound the exponent
instead. -/
def powi (q : Rational) (exp : Nat) : Rational :=
  if exp = 0 then one
  else if exp = 1 then q
  else
    { sign := if exp % 2 = 0 then .Pos else q.sign
      numer := q.numer ^ exp
      denom := q.denom ^ exp }

/-- `Rational::to_with_denominator(new_denom, round_up)`: force the
denominator to `new_denom`, with the numerator rounded down
(`round_up = false`) or rounded down plus one (`round_up = true`). -/
def to_with_denominator (q : Rational) (new_denom : Nat) (round_up : Bool) : Rational :=
  let new_mod_old := (new_denom % q.denom) * q.numer / q.denom
  let new_div_old := (new_denom / q.denom) * q.numer
  { q with
    numer := new_div_old + new_mod_old + (if round_up then 1 else 0)
    denom := new_denom }

/-- `Rational::is_simplified`. -/
def is_simplified (q : Rational) : Bool := rgcd q.numer q.denom = 1

/-- `Rational::is_negative`. -/
def is_negative (q : Rational) : Bool := !q.is_zero && q.sign = .Neg

/-- `Rational::is_int`. -/
def is_int (q : Rational) : Bool :=
  if q.denom = 1 then true else rgcd q.numer q.denom = q.denom

/-- `Rational::is_denom_odd` (`denom.bit(0)`). -/
def is_denom_odd (q : Rational) : Bool := q.denom % 2 = 1

/-- `AddAssign for Rational`: bring both over the lcm of the denominators,
then a six-way sign/magnitude case analysis, then simplify.  (The
`(Neg, Pos, true)` arm of the source adds the magnitudes instead of
subtracting them; it is transcribed as written.) -/
def addAssign (a b : Rational) : Rational :=
  let denom_lcm := rlcm a.denom b.denom
  let self_factor := denom_lcm / a.denom
  let rhs_factor := denom_lcm / b.denom
  let numer1 := a.numer * self_factor
  let denom1 := a.denom * self_factor
  let rhsn := b.numer * rhs_factor
  match a.sign, b.sign, decide (numer1 > rhsn) with
  | .Pos, .Pos, _ => simplify ⟨a.sign, numer1 + rhsn, denom1⟩
  | .Neg, .Neg, _ => simplify ⟨a.sign, numer1 + rhsn, denom1⟩
  | .Pos, .Neg, true => simplify ⟨a.sign, numer1 - rhsn, denom1⟩
  | .Pos, .Neg, false => simplify ⟨.Neg, rhsn - numer1, denom1⟩
  | .Neg, .Pos, true => simplify ⟨a.sign, numer1 + rhsn, denom1⟩
  | .Neg, .Pos, false => simplify ⟨.Pos, rhsn - numer1, denom1⟩

/-- `SubAssign for Rational`: identical to `addAssign` except that the
match is driven by the negation of the right-hand sign. -/
def subAssign (a b : Rational) : Rational :=
  addAssign a { b with sign := b.sign.bnot }

/-- `MulAssign for Rational`. -/
def mulAssign (a b : Rational) : Rational :=
  simplify
    { sign := a.sign.bxor b.sign
      numer := a.numer * b.numer
      denom := a.denom * b.denom }

/-- `DivAssign for Rational`: multiply by the reversed fraction.  Division
by zero (zero `rhs.numer`) is a panic in Rust; theorems carry the
hypothesis. -/
def divAssign (a b : Rational) : Rational :=
  simplify
    { sign := a.sign.bxor b.sign
      numer := a.numer * b.denom
      denom := a.denom * b.numer }

/-- `PartialEq for Rational::eq`, transcribed exactly — including its first
branch, which tests `other.denom == 0` (not `other.numer`). -/
def ratEq (a b : Rational) : Bool :=
  if a.numer = 0 ∧ b.denom = 0 then true
  else if a.sign ≠ b.sign then false
  else if a.numer = b.numer ∧ a.denom = b.denom then true
  else
    let denom_lcm := rlcm a.denom b.denom
    (denom_lcm / a.denom) * a.numer = (denom_lcm / b.denom) * b.numer

/-- `Ord for Rational::cmp`. -/
def ratCmp (a b : Rational) : Ordering :=
  if a.numer = 0 ∧ b.numer = 0 then .eq
  else
    match a.sign, b.sign with
    | .Pos, .Neg => .gt
    | .Neg, .Pos => .lt
    | _, _ =>
      if a.numer = b.numer ∧ a.denom = b.denom then .eq
      else
        let denom_lcm := rlcm a.denom b.denom
        let x := (denom_lcm / a.denom) * a.numer
        let y := (denom_lcm / b.denom) * b.numer
        if x = y then .eq
        else
          match decide (x > y), a.sign with
          | true, .Pos => .gt
          | true, .Neg => .lt
          | false, .Pos => .lt
          | false, .Neg => .gt

end Rational

/-- The rational number denoted by a `Rational` value. -/
def ratToQ (q : Rational) : ℚ :=
  (if q.sign = .Neg then -1 else 1) * (q.numer : ℚ) / (q.denom : ℚ)

/-! ## src/rational_range.rs -/

/-- `RationalRange` from rational_range.rs. -/
structure RationalRange where
  min : Rational
  max : Rational
deriving DecidableEq, Repr

/-- `RationalRangeDescriptor` from rational_range.rs. -/
inductive RationalRangeDescriptor where
  | BothPos
  | BothNeg
  | OverlapZero
deriving DecidableEq, Repr

namespace RationalRange

/-- `RationalRange::descriptor`: classify by the `is_negative` tests of the
endpoints; `(min non-negative, max negative)` is a panic in Rust, embedded
as `none`. -/
def descriptor (r : RationalRange) : Option RationalRangeDescriptor :=
  match r.min.is_negative, r.max.is_negative with
  | false, false => some .BothPos
  | true, true => some .BothNeg
  | true, false => some .OverlapZero
  | false, true => none

/-- `AddAssign for RationalRange`: componentwise endpoint addition. -/
def addAssign (a b : RationalRange) : RationalRange :=
  { min := a.min.addAssign b.min, max := a.max.addAssign b.max }

/-- `MulAssign for RationalRange`: the nine-way case split on the two
descriptors, transcribed with the same mutation order as the source
(`none` when a `descriptor` call panics).  In the `(OverlapZero,
OverlapZero)` case the source keeps the *larger* of `self.min * rhs.max`
and `self.max * rhs.min` as the output min: the branch replaces `self.min`
whenever `self.min < min_branch`. -/
def mulAssign (a b : RationalRange) : Option RationalRange :=
  match a.descriptor, b.descriptor with
  | some .BothPos, some .BothPos =>
    some { min := a.min.mulAssign b.min, max := a.max.mulAssign b.max }
  | some .BothNeg, some .BothNeg =>
    some { min := a.max.mulAssign b.max, max := a.min.mulAssign b.min }
  | some .BothPos, some .BothNeg =>
    some { min := a.max.mulAssign b.min, max := a.min.mulAssign b.max }
  | some .BothPos, some .OverlapZero =>
    some { min := a.max.mulAssign b.min, max := a.max.mulAssign b.max }
  | some .BothNeg, some .BothPos =>
    some { min := a.min.mulAssign b.max, max := a.max.mulAssign b.min }
  | some .BothNeg, some .OverlapZero =>
    some { min := a.min.mulAssign b.max, max := a.min.mulAssign b.min }
  | some .OverlapZero, some .BothPos =>
    some { min := a.min.mulAssign b.max, max := a.max.mulAssign b.max }
  | some .OverlapZero, some .BothNeg =>
    some { min := a.max.mulAssign b.min, max := a.min.mulAssign b.min }
  | some .OverlapZero, some .OverlapZero =>
    let min_branch := a.max.mulAssign b.min
    let max_branch := a.min.mulAssign b.min
    let min0 := a.min.mulAssign b.max
    let min' := if Rational.ratCmp min0 min_branch = .lt then min_branch else min0
    let max0 := a.max.mulAssign b.max
    let max' := if Rational.ratCmp max0 max_branch = .lt then max_branch else max0
    some { min := min', max := max' }
  | _, _ => none

end RationalRange

/-! ## src/byzantine.rs : expression nodes -/

/-- `TransitiveConsts` from byzantine.rs (derived `Ord` gives `Pi < Euler`). -/
inductive TransitiveConsts where
  | Pi
  | Euler
deriving DecidableEq, Repr

/-- Derived `Ord for TransitiveConsts`: declaration order, `Pi < Euler`. -/
def TransitiveConsts.tcCmp : TransitiveConsts → TransitiveConsts → Ordering
  | .Pi, .Pi => .eq
  | .Pi, .Euler => .lt
  | .Euler, .Pi => .gt
  | .Euler, .Euler => .eq

/-- `ByzNode` from byzantine.rs.  `ByzNodeCoefficientAddVec` and
`ByzNodePowerMulVec` (byznode_sorted_vec.rs) are both a rational part plus
a sorted vector of `(Rational, Rc<ByzNode>)` pairs, embedded as the
`rationalPart` field and a `List (Rational × ByzNode)`. -/
inductive ByzNode where
  | transitiveConst (c : TransitiveConsts)
  | add (rationalPart : Rational) (vec : List (Rational × ByzNode))
  | mul (rationalPart : Rational) (vec : List (Rational × ByzNode))
  | pow (base : ByzNode) (exp : Rational)
deriving Repr

/-- `ByzNode::to_identifying_type_int`. -/
def ByzNode.to_identifying_type_int : ByzNode → Nat
  | .transitiveConst _ => 0
  | .add _ _ => 1
  | .mul _ _ => 2
  | .pow _ _ => 3

mutual

/-- `Ord for ByzNode::cmp` (byzantine.rs): same variants compare payloads —
for `Add` and `Mul` via `util_cmp` of byznode_sorted_vec.rs (term vector
first, then the rational part), for `Pow` base first then exponent —
while different variants compare `to_identifying_type_int`. -/
def ByzNode.cmp : ByzNode → ByzNode → Ordering
  | .transitiveConst c1, .transitiveConst c2 => c1.tcCmp c2
  | .add r1 v1, .add r2 v2 =>
    match ByzNode.vecCmp v1 v2 with
    | .eq => Rational.ratCmp r1 r2
    | o => o
  | .mul r1 v1, .mul r2 v2 =>
    match ByzNode.vecCmp v1 v2 with
    | .eq => Rational.ratCmp r1 r2
    | o => o
  | .pow b1 e1, .pow b2 e2 =>
    match ByzNode.cmp b1 b2 with
    | .eq => Rational.ratCmp e1 e2
    | o => o
  | x, y => compare x.to_identifying_type_int y.to_identifying_type_int

/-- Derived `Ord` on `Vec<(Rational, Rc<ByzNode>)>`: lexicographic over
the pairs, a strict prefix comparing less; each pair compares its
`Rational` first and then its node. -/
def ByzNode.vecCmp : List (Rational × ByzNode) → List (Rational × ByzNode) → Ordering
  | [], [] => .eq
  | [], _ :: _ => .lt
  | _ :: _, [] => .gt
  | x :: xs, y :: ys =>
    match Rational.ratCmp x.1 y.1 with
    | .eq =>
      match ByzNode.cmp x.2 y.2 with
      | .eq => ByzNode.vecCmp xs ys
      | o => o
    | o => o

end

/-! ## src/byznode_sorted_vec.rs : insertion-merge -/

/-- The contract of Rust's `slice::binary_search_by` on a sorted vector:
`inl index` when the comparator answers `Equal` at `index`, otherwise
`inr` of the insertion point (the first position whose element does not
compare `Less`). -/
def binarySearchBy {α : Type} : List α → (α → Ordering) → Sum Nat Nat
  | [], _ => .inr 0
  | x :: xs, f =>
    match f x with
    | .lt =>
      match binarySearchBy xs f with
      | .inl i => .inl (i + 1)
      | .inr i => .inr (i + 1)
    | .eq => .inl 0
    | .gt => .inr 0

/-- `ByzNodeVec::insert` from byznode_sorted_vec.rs: binary-search the
sorted vector by the node order; on a hit add the incoming `Rational`
weight to the stored one and delete the entry when the combined weight
compares equal (via `PartialEq`) to `Rational::from(0)`; on a miss insert
the pair at the returned position. -/
def byzVecInsert (vec : List (Rational × ByzNode)) (item : Rational × ByzNode) :
    List (Rational × ByzNode) :=
  match binarySearchBy vec (fun x => ByzNode.cmp x.2 item.2) with
  | .inl index =>
    match vec[index]? with
    | some entry =>
      let w := entry.1.addAssign item.1
      if Rational.ratEq w (Rational.fromInt 0) then vec.eraseIdx index
      else vec.set index (w, entry.2)
    | none => vec
  | .inr index => vec.insertIdx index item

/-! ## src/neoprene_taylor.rs -/

/-- `factorial_biguint` from neoprene_taylor.rs: 1 for `x < 2`, otherwise
the product of `2..(x+1)`. -/
def factorial_biguint (x : Nat) : Nat :=
  if x < 2 then 1
  else (List.range' 2 (x - 1)).foldl (· * ·) 1

/-- `factorial` from neoprene_taylor.rs: the factorial as a positive
integer `Rational`. -/
def factorial (x : Nat) : Rational :=
  { sign := .Pos, numer := factorial_biguint x, denom := 1 }

/-- The panic guards at the head of `rational_range_pow`
(neoprene_taylor.rs): `true` means the function panics before computing
anything (unsimplified exponent, zero exponent, exponent above 8, or —
as the guard is written — a negative endpoint together with an *odd*
exponent denominator); `false` means execution proceeds (`is_one` returns
the base unchanged). -/
def rational_range_pow_rejects (base : RationalRange) (exp : Rational) : Bool :=
  if !exp.is_simplified then true
  else if exp.is_zero then true
  else if exp.is_one then false
  else if Rational.ratCmp exp (Rational.fromInt 8) = .gt then true
  else if (base.min.is_negative || base.max.is_negative) && exp.is_denom_odd then true
  else false

/-! ## src/neoprene.rs : the interval evaluator -/

/-- The Gregory–Leibniz correction term added at step `n` of the π loop in
`neoprene_transitive`: `(-1)^(n+1) * 4 / ((2n)(2n+1)(2n+2))`, built
unsimplified exactly as in the source. -/
def gregoryLeibnizTerm (n : Nat) : Rational :=
  { sign := if n % 2 = 1 then .Pos else .Neg
    numer := 4
    denom := (2 * n) * (2 * n + 1) * (2 * n + 2) }

/-- `neoprene_transitive` from neoprene.rs.  π: start at 3, add `k`
Gregory–Leibniz terms, then one more; which of the two partial sums is min
or max depends on the parity of `k`.  e: `2 + Σ_{n=2}^{k+2} 1/n!` as the
lower endpoint, the upper endpoint adds the error term
`(lower)/( (k+3)! )`.  The `biguint_to_u32` panic for iteration counts
`≥ 2^32` is not modelled: `k` is taken as the `Nat` itself. -/
def neoprene_transitive (c : TransitiveConsts) (newton_iterations : Nat) : RationalRange :=
  match c with
  | .Pi =>
    let k := newton_iterations
    let a := (List.range k).foldl
      (fun acc i => acc.addAssign (gregoryLeibnizTerm (i + 1))) (Rational.fromInt 3)
    let b := a
    let a := a.addAssign
      { sign := if k % 2 = 0 then .Pos else .Neg
        numer := 4
        denom := (2 * k + 2) * (2 * k + 3) * (2 * k + 4) }
    if k % 2 = 1 then { min := a, max := b } else { min := b, max := a }
  | .Euler =>
    let k := newton_iterations
    let lo := (List.range' 2 (k + 1)).foldl
      (fun acc n => acc.addAssign (factorial n).invert) (Rational.fromInt 2)
    let error := Rational.simplify { lo with denom := lo.denom * factorial_biguint (k + 3) }
    { min := lo, max := lo.addAssign error }

/-- `neoprene_rational_pow_raw` from neoprene.rs.  `none` embeds the abort
paths: the four guard panics, the guard that fires when the base is
negative and the exponent denominator is *odd* (as written in the source),
the `powi`/`invert` panics, and — crucially — the `todo!()` that every
non-integer exponent reaches. -/
def neoprene_rational_pow_raw (rational exp : Rational) (newton_iterations : Nat) :
    Option Rational :=
  if !exp.is_simplified then none
  else if exp.is_zero then none
  else if exp.is_one then none
  else if Rational.ratCmp exp (Rational.fromInt 8) = .gt then none
  else if rational.is_negative && exp.is_denom_odd then none
  else if exp.is_int then
    if 2 ≤ exp.numer ∧ 12 < exp.numer then none
    else
      let r := rational.powi exp.numer
      if exp.is_negative then
        if r.numer = 0 then none else some r.invert
      else some r
  else none

/-- `neoprene_range_pow_raw` from neoprene.rs: dispatch on the descriptor
(`none` if `descriptor` panics), raise both endpoints, re-sort them for the
`BothNeg` and `OverlapZero` cases, and clamp the min of a zero-straddling
even power to `Rational::zero()` (which is `(Neg, 0, 1)`). -/
def neoprene_range_pow_raw (range : RationalRange) (exp : Rational)
    (newton_iterations : Nat) : Option RationalRange :=
  match range.descriptor with
  | none => none
  | some .BothPos =>
    match neoprene_rational_pow_raw range.min exp newton_iterations,
        neoprene_rational_pow_raw range.max exp newton_iterations with
    | some lo, some hi => some { min := lo, max := hi }
    | _, _ => none
  | some .BothNeg =>
    match neoprene_rational_pow_raw range.min exp newton_iterations,
        neoprene_rational_pow_raw range.max exp newton_iterations with
    | some lo, some hi =>
      if Rational.ratCmp lo hi = .gt then some { min := hi, max := lo }
      else some { min := lo, max := hi }
    | _, _ => none
  | some .OverlapZero =>
    match neoprene_rational_pow_raw range.min exp newton_iterations,
        neoprene_rational_pow_raw range.max exp newton_iterations with
    | some lo, some hi =>
      let (lo, hi) := if Rational.ratCmp lo hi = .gt then (hi, lo) else (lo, hi)
      if !lo.is_negative && !hi.is_negative then
        some { min := Rational.zero, max := hi }
      else some { min := lo, max := hi }
    | _, _ => none

mutual

/-- `neoprene_byznode` from neoprene.rs: dispatch over the four node
variants; `none` embeds a panic anywhere below. -/
def neoprene_byznode : ByzNode → Nat → Option RationalRange
  | .transitiveConst c, it => some (neoprene_transitive c it)
  | .add r vec, it => neoprene_add_loop { min := r, max := r } vec it
  | .mul r vec, it => neoprene_mul_loop { min := r, max := r } vec it
  | .pow base exp, it =>
    match neoprene_byznode base it with
    | some range => neoprene_range_pow_raw range exp it
    | none => none

/-- The `for i in vec` loop of `neoprene_add` (neoprene.rs): evaluate each
term, multiply *both* endpoints by the coefficient (`i_range.min *= i.0;
i_range.max *= i.0` — no sign handling), and interval-add onto the
accumulator. -/
def neoprene_add_loop : RationalRange → List (Rational × ByzNode) → Nat →
    Option RationalRange
  | range, [], _ => some range
  | range, p :: rest, it =>
    match neoprene_byznode p.2 it with
    | some i_range =>
      let scaled : RationalRange :=
        { min := i_range.min.mulAssign p.1, max := i_range.max.mulAssign p.1 }
      neoprene_add_loop (range.addAssign scaled) rest it
    | none => none

/-- The `for i in vec` loop of `neoprene_mul` (neoprene.rs): evaluate each
factor, raise it to its exponent via `neoprene_range_pow_raw`, and
interval-multiply onto the accumulator. -/
def neoprene_mul_loop : RationalRange → List (Rational × ByzNode) → Nat →
    Option RationalRange
  | range, [], _ => some range
  | range, p :: rest, it =>
    match neoprene_byznode p.2 it with
    | some i_range =>
      match neoprene_range_pow_raw i_range p.1 it with
      | some powed =>
        match range.mulAssign powed with
        | some range' => neoprene_mul_loop range' rest it
        | none => none
      | none => none
    | none => none

end

/-- `neoprene_add` from neoprene.rs: accumulator `[rat, rat]` from the
rational part, then the term loop. -/
def neoprene_add (rationalPart : Rational) (vec : List (Rational × ByzNode))
    (newton_iterations : Nat) : Option RationalRange :=
  neoprene_add_loop { min := rationalPart, max := rationalPart } vec newton_iterations

/-- `neoprene_mul` from neoprene.rs. -/
def neoprene_mul (rationalPart : Rational) (vec : List (Rational × ByzNode))
    (newton_iterations : Nat) : Option RationalRange :=
  neoprene_mul_loop { min := rationalPart, max := rationalPart } vec newton_iterations

/-! ## Recursion-depth bound for the evaluator -/

mutual

/-- Structural size of an expression node (strictly larger than the size
of any subterm reachable through the term vectors). -/
def ByzNode.size : ByzNode → Nat
  | .transitiveConst _ => 1
  | .add _ vec => 1 + ByzNode.sizeVec vec
  | .mul _ vec => 1 + ByzNode.sizeVec vec
  | .pow base _ => 1 + base.size

/-- Total size of a term vector. -/
def ByzNode.sizeVec : List (Rational × ByzNode) → Nat
  | [] => 0
  | p :: rest => p.2.size + 1 + ByzNode.sizeVec rest

end

/-- Outcome of a fuel-indexed evaluation step: a normal result, a panic,
or exhaustion of the recursion-depth budget. -/
inductive EvalResult where
  | ok (range : RationalRange)
  | panic
  | outOfFuel
deriving DecidableEq, Repr

/-- The `Option` result of the evaluator viewed as an `EvalResult`
(`none`, a panic, never exhausts fuel). -/
def toEvalResult : Option RationalRange → EvalResult
  | some r => .ok r
  | none => .panic

mutual

/-- `neoprene_byznode` with an explicit recursion-depth budget: identical
to `neoprene_byznode` except that each recursive descent into a subterm
spends one unit of fuel, and running out of fuel is reported as
`outOfFuel`.  Every internal loop (series summation, the term-vector
folds) is a structurally bounded fold and consumes no fuel. -/
def neoprene_byznodeF : Nat → ByzNode → Nat → EvalResult
  | 0, _, _ => .outOfFuel
  | fuel + 1, node, it =>
    match node with
    | .transitiveConst c => .ok (neoprene_transitive c it)
    | .add r vec => neoprene_add_loopF fuel { min := r, max := r } vec it
    | .mul r vec => neoprene_mul_loopF fuel { min := r, max := r } vec it
    | .pow base exp =>
      match neoprene_byznodeF fuel base it with
      | .ok range => toEvalResult (neoprene_range_pow_raw range exp it)
      | e => e
termination_by fuel _ _ => (fuel, 0)

/-- Fuel-indexed version of `neoprene_add_loop`. -/
def neoprene_add_loopF : Nat → RationalRange → List (Rational × ByzNode) → Nat →
    EvalResult
  | _, range, [], _ => .ok range
  | fuel, range, p :: rest, it =>
    match neoprene_byznodeF fuel p.2 it with
    | .ok i_range =>
      let scaled : RationalRange :=
        { min := i_range.min.mulAssign p.1, max := i_range.max.mulAssign p.1 }
      neoprene_add_loopF fuel (range.addAssign scaled) rest it
    | e => e
termination_by fuel _ vec _ => (fuel, vec.length + 1)

/-- Fuel-indexed version of `neoprene_mul_loop`. -/
def neoprene_mul_loopF : Nat → RationalRange → List (Rational × ByzNode) → Nat →
    EvalResult
  | _, range, [], _ => .ok range
  | fuel, range, p :: rest, it =>
    match neoprene_byznodeF fuel p.2 it with
    | .ok i_range =>
      match neoprene_range_pow_raw i_range p.1 it with
      | some powed =>
        match range.mulAssign powed with
        | some range' => neoprene_mul_loopF fuel range' rest it
        | none => .panic
      | none => .panic
    | e => e
termination_by fuel _ vec _ => (fuel, vec.length + 1)

end

/-! ## src/neoprene_comp.rs : the comparison driver -/

/-- `neoprene_comp`'s result: `Ok(Ordering)` or
`Err(NeopreneCompError::FailedToConverge)`. -/
inductive NeopreneCompResult where
  | ordering (o : Ordering)
  | failedToConverge
deriving DecidableEq, Repr

/-- The `loop` of `neoprene_comp` (neoprene_comp.rs), parameterised over
the two evaluations (`neoprene_comp` calls a three-argument
`neoprene_byznode(node, iter, limit_denom)` for each operand; the theorems
below hold for *every* pair of such evaluation functions, hence for the
evaluator on every pair of expressions): return `Greater` when
`a_range.min > b_range.max`, `Less` when `a_range.max < b_range.min`,
`FailedToConverge` when `iter > max_iterations`, and otherwise retry with
`iter + 1` and `denom * 3`. -/
def neoprene_comp_loop (evalA evalB : Nat → Nat → RationalRange)
    (maxIterations iter denom : Nat) : NeopreneCompResult :=
  if Rational.ratCmp (evalA iter denom).min (evalB iter denom).max = .gt then
    .ordering .gt
  else if Rational.ratCmp (evalA iter denom).max (evalB iter denom).min = .lt then
    .ordering .lt
  else if maxIterations < iter then .failedToConverge
  else neoprene_comp_loop evalA evalB maxIterations (iter + 1) (denom * 3)
termination_by maxIterations + 1 - iter
decreasing_by omega

/-- `neoprene_comp` from neoprene_comp.rs: the loop started at
`current_iterations = 3` and `current_limit_denom = 6091`. -/
def neoprene_comp (evalA evalB : Nat → Nat → RationalRange)
    (maxIterations : Nat) : NeopreneCompResult :=
  neoprene_comp_loop evalA evalB maxIterations 3 6091

/-! ## Rational canonicity -/

/-- Canonicity exactly as the specification states it: reduced fraction,
positive denominator, and a zero numerator forces a positive sign. -/
def RatCanonicalClaim (q : Rational) : Prop :=
  rgcd q.numer q.denom = 1 ∧ 0 < q.denom ∧ (q.numer = 0 → q.sign = .Pos)

instance (q : Rational) : Decidable (RatCanonicalClaim q) := by
  unfold RatCanonicalClaim; infer_instance

theorem simplify_reduced (q : Rational) (hd : 0 < q.denom) :
    Nat.gcd q.simplify.numer q.simplify.denom = 1 ∧ 0 < q.simplify.denom := by
  unfold Rational.simplify
  simp only [rgcd_eq_gcd, ne_eq, ite_not]
  by_cases hg : Nat.gcd q.numer q.denom = 1
  · simp [hg, hd]
  · have hpos : 0 < Nat.gcd q.numer q.denom := Nat.gcd_pos_of_pos_right _ hd
    simp only [hg, if_false]
    refine ⟨Nat.coprime_div_gcd_div_gcd hpos, ?_⟩
    exact Nat.div_pos (Nat.le_of_dvd hd (Nat.gcd_dvd_right _ _)) hpos

theorem addAssign_reduced (a b : Rational) (ha : 0 < a.denom) (hb : 0 < b.denom) :
    Nat.gcd (a.addAssign b).numer (a.addAssign b).denom = 1 ∧
      0 < (a.addAssign b).denom := by
  simp only [Rational.addAssign]
  have hl : 0 < Nat.lcm a.denom b.denom := Nat.lcm_pos ha hb
  have hsf : 0 < rlcm a.denom b.denom / a.denom := by
    rw [rlcm_eq_lcm]
    exact Nat.div_pos (Nat.le_of_dvd hl (Nat.dvd_lcm_left _ _)) ha
  have hd1 : 0 < a.denom * (rlcm a.denom b.denom / a.denom) := Nat.mul_pos ha hsf
  split <;> exact simplify_reduced _ hd1

/-! ## Claim theorems -/

/-- Claim C7 (corrected), counterexample: the `From<(isize, isize)>`
conversion of `(2, 4)` keeps numerator 2 and denominator 4 unreduced, and
`Rational::zero()` (= `Rational::from(0)`) carries the stored sign `Neg`
with numerator 0, so the canonicity invariant as claimed fails on both
core operations. -/
theorem C7_from_pair_and_zero_not_canonical :
    ¬ RatCanonicalClaim (Rational.fromPair 2 4) ∧
      ¬ RatCanonicalClaim Rational.zero := by decide

/-- Claim C7 (corrected): every `Rational` produced by `new` (positive
denominator argument), the `one` accessor, `+=`, `−=`, `×=`, `÷=` (nonzero
divisor), `powi` (exponent within the supported bound 12), `negate` and
`invert` (nonzero numerator) — with canonical operands where the operation
relies on it — is a reduced fraction with positive denominator.  The
`From` conversions and the `zero` accessor return their components as
given, and a zero numerator does not force a positive sign. -/
theorem C7_core_operations_reduced (s : Sign) (n d : Nat) (a b : Rational) (k : Nat)
    (hd : 0 < d) (ha : 0 < a.denom) (hb : 0 < b.denom)
    (hag : Nat.gcd a.numer a.denom = 1) (hk : k ≤ 12) :
    (Nat.gcd (Rational.new s n d).numer (Rational.new s n d).denom = 1 ∧
      0 < (Rational.new s n d).denom) ∧
    (Nat.gcd Rational.one.numer Rational.one.denom = 1 ∧ 0 < Rational.one.denom) ∧
    (Nat.gcd (a.addAssign b).numer (a.addAssign b).denom = 1 ∧
      0 < (a.addAssign b).denom) ∧
    (Nat.gcd (a.subAssign b).numer (a.subAssign b).denom = 1 ∧
      0 < (a.subAssign b).denom) ∧
    (Nat.gcd (a.mulAssign b).numer (a.mulAssign b).denom = 1 ∧
      0 < (a.mulAssign b).denom) ∧
    (b.numer ≠ 0 →
      Nat.gcd (a.divAssign b).numer (a.divAssign b).denom = 1 ∧
        0 < (a.divAssign b).denom) ∧
    (Nat.gcd (a.powi k).numer (a.powi k).denom = 1 ∧ 0 < (a.powi k).denom) ∧
    (Nat.gcd a.negate.numer a.negate.denom = 1 ∧ 0 < a.negate.denom) ∧
    (a.numer ≠ 0 → Nat.gcd a.invert.numer a.invert.denom = 1 ∧ 0 < a.invert.denom) := by
  refine ⟨Rational.new s n d |> fun _ => simplify_reduced _ hd, by decide,
    addAssign_reduced a b ha hb, addAssign_reduced a _ ha hb, ?_, ?_, ?_, ?_, ?_⟩
  · unfold Rational.mulAssign
    exact simplify_reduced _ (Nat.mul_pos ha hb)
  · intro hbn
    unfold Rational.divAssign
    exact simplify_reduced _ (Nat.mul_pos ha (Nat.pos_of_ne_zero hbn))
  · unfold Rational.powi
    by_cases h0 : k = 0
    · simp [h0]; decide
    · by_cases h1 : k = 1
      · simp [h0, h1, hag, ha]
      · simp only [h0, h1, if_false]
        exact ⟨Nat.Coprime.pow k k hag, pow_pos ha k⟩
  · exact ⟨hag, ha⟩
  · intro han
    unfold Rational.invert
    exact ⟨by simpa [Nat.gcd_comm] using hag, Nat.pos_of_ne_zero han⟩

/-- Witness for the C7 theorem: its conclusion for `+=` at
`2/3 += (-5/7)`, every hypothesis discharged at concrete values. -/
theorem C7_core_operations_reduced_witness :
    Nat.gcd ((Rational.mk .Pos 2 3).addAssign ⟨.Neg, 5, 7⟩).numer
        ((Rational.mk .Pos 2 3).addAssign ⟨.Neg, 5, 7⟩).denom = 1 ∧
      0 < ((Rational.mk .Pos 2 3).addAssign ⟨.Neg, 5, 7⟩).denom :=
  (C7_core_operations_reduced .Pos 6 4 ⟨.Pos, 2, 3⟩ ⟨.Neg, 5, 7⟩ 3
    (by decide) (by decide) (by decide) (by decide) (by decide)).2.2.1

/-- Claim C2 (code bug): for `I = [-1, 2]` and `J = [-3, 1]`, both
strictly straddling zero, the source's `(OverlapZero, OverlapZero)` case
returns min `-1` — the *larger* of `I.min·J.max = -1` and
`I.max·J.min = -6` — whereas the claimed formula
`min(I.min·J.max, I.max·J.min)` is `-6`.  (The product can reach
`2 · (-3) = -6`, so the returned interval also loses enclosure.) -/
theorem C2_overlap_mul_keeps_larger_min :
    RationalRange.mulAssign ⟨⟨.Neg, 1, 1⟩, ⟨.Pos, 2, 1⟩⟩ ⟨⟨.Neg, 3, 1⟩, ⟨.Pos, 1, 1⟩⟩
        = some ⟨⟨.Neg, 1, 1⟩, ⟨.Pos, 3, 1⟩⟩ ∧
      Rational.mulAssign ⟨.Pos, 2, 1⟩ ⟨.Neg, 3, 1⟩ = ⟨.Neg, 6, 1⟩ ∧
      Rational.ratCmp ⟨.Neg, 6, 1⟩ ⟨.Neg, 1, 1⟩ = .lt := by decide

/-- Claim C3 (code bug): the guard of `rational_range_pow` fires on a
negative endpoint with an *odd* exponent denominator (`(-8)^(1/3)`, a
perfectly real cube root) and passes a negative endpoint with an *even*
denominator (`(-8)^(1/2)`) — the exact inversion of the claimed (and
commented) behaviour. -/
theorem C3_denominator_parity_guard_inverted :
    rational_range_pow_rejects ⟨⟨.Neg, 8, 1⟩, ⟨.Neg, 8, 1⟩⟩ ⟨.Pos, 1, 3⟩ = true ∧
      rational_range_pow_rejects ⟨⟨.Neg, 8, 1⟩, ⟨.Neg, 8, 1⟩⟩ ⟨.Pos, 1, 2⟩ = false := by
  decide

/-- Claim C5 (code bug): the exponent `1/2` is legal (simplified, nonzero,
not above 8) and the base interval for π is strictly positive, yet
evaluating `Pow(π, 1/2)` aborts — `neoprene_rational_pow_raw` ends in
`todo!()` for every non-integer exponent, and the Newton `nth_root` code of
neoprene_taylor.rs is never called on this path. -/
theorem C5_noninteger_exponent_reaches_todo :
    Rational.is_simplified ⟨.Pos, 1, 2⟩ = true ∧
      Rational.is_zero ⟨.Pos, 1, 2⟩ = false ∧
      Rational.ratCmp ⟨.Pos, 1, 2⟩ (Rational.fromInt 8) = .lt ∧
      neoprene_byznode (.pow (.transitiveConst .Pi) ⟨.Pos, 1, 2⟩) 1 = none := by
  refine ⟨by decide, by decide, by decide, by rfl⟩

/-- Claim C8 (code bug): `0/1` with stored sign `Pos` (produced by
`Rational::new(Pos, 0, 5)`) and `Rational::zero()` (stored sign `Neg`) are
both zero; `cmp` answers `Equal`, but `eq` answers `false` because its
both-zero branch tests `other.denom == 0` instead of `other.numer == 0`. -/
theorem C8_eq_disagrees_with_cmp_on_zero :
    Rational.new .Pos 0 5 = ⟨.Pos, 0, 1⟩ ∧
      Rational.zero = ⟨.Neg, 0, 1⟩ ∧
      Rational.ratEq ⟨.Pos, 0, 1⟩ ⟨.Neg, 0, 1⟩ = false ∧
      Rational.ratCmp ⟨.Pos, 0, 1⟩ ⟨.Neg, 0, 1⟩ = .eq := by decide

/-- Claim C9 (code bug): inserting `(-1, π)` and then `(+1, π)` into an
empty term vector leaves the entry `((Pos, 0, 1), π)` in place: the merge
produces the combined weight `+0`, but the removal test compares it to
`Rational::from(0)` (whose stored sign is `Neg`) with the buggy `eq`, which
answers `false` — so a zero-coefficient entry survives. -/
theorem C9_zero_weight_entry_survives :
    byzVecInsert (byzVecInsert [] (Rational.fromInt (-1), .transitiveConst .Pi))
        (Rational.fromInt 1, .transitiveConst .Pi)
        = [(⟨.Pos, 0, 1⟩, .transitiveConst .Pi)] ∧
      Rational.is_zero ⟨.Pos, 0, 1⟩ = true := by
  exact ⟨by rfl, by rfl⟩

/-- Claim C1 (code bug): the expression `Sum(0, [(-1, π)])` denotes the
real number `-π`.  At `iter = 1` the evaluator returns the interval
`[-47/15, -19/6]`, whose upper endpoint `-19/6 ≈ -3.1667` lies *below*
`-π ≈ -3.1416` (since `π < 3.15 < 19/6`), so the returned interval does
not enclose the true value: the sign-oblivious coefficient scaling in
`neoprene_add` turns the valid enclosure `[47/15, 19/6]` of π into an
inverted pair that excludes `-π`. -/
theorem C1_enclosure_fails_on_negative_coefficient :
    neoprene_byznode
        (.add (Rational.fromInt 0) [(Rational.fromInt (-1), .transitiveConst .Pi)]) 1
        = some { min := ⟨.Neg, 47, 15⟩, max := ⟨.Neg, 19, 6⟩ } ∧
      ((ratToQ ⟨.Neg, 19, 6⟩ : ℚ) : ℝ) < -Real.pi := by
  constructor
  · rfl
  · have hpi : Real.pi < 3.15 := Real.pi_lt_d2
    have hq : ratToQ ⟨.Neg, 19, 6⟩ = -19 / 6 := by norm_num [ratToQ]
    rw [hq]
    push_cast
    norm_num
    linarith

/-- Claim C6 (code bug): in `neoprene_add` the coefficient is multiplied
onto both endpoints with no sign handling, so for the term `(-1, π)` at
`iter = 1` the scaled (and returned) interval is `[-47/15, -19/6]` with
`min > max` — both under the embedded `Rational` ordering and as rational
numbers — contradicting the claimed `min ≤ max` of the scaled interval. -/
theorem C6_negative_coefficient_scaling_inverts_interval :
    neoprene_add (Rational.fromInt 0) [(Rational.fromInt (-1), .transitiveConst .Pi)] 1
        = some { min := ⟨.Neg, 47, 15⟩, max := ⟨.Neg, 19, 6⟩ } ∧
      Rational.ratCmp ⟨.Neg, 47, 15⟩ ⟨.Neg, 19, 6⟩ = .gt ∧
      ratToQ ⟨.Neg, 19, 6⟩ < ratToQ ⟨.Neg, 47, 15⟩ := by
  refine ⟨by rfl, by decide, by norm_num [ratToQ]⟩

/-- Behaviour of every pass of `neoprene_comp_loop`, proven by induction on
the remaining iteration budget: with the loop entered at `(iter, denom)`,
the pass visited after `k` further refinements sees `(iter + k,
denom * 3^k)`.  The loop (1) never produces `Ordering.eq`, (2) produces
`Greater` only if some visited pass separates with `a.min > b.max`,
(3) produces `Less` only if some visited pass separates with
`a.max < b.min`, and (4) produces `FailedToConverge` whenever no pass up
to the budget-exhausting one separates. -/
theorem comp_loop_spec :
    ∀ (n : Nat) (evalA evalB : Nat → Nat → RationalRange) (mi iter denom : Nat),
    mi + 1 - iter ≤ n →
    (∀ o, neoprene_comp_loop evalA evalB mi iter denom = .ordering o → o ≠ .eq) ∧
    (neoprene_comp_loop evalA evalB mi iter denom = .ordering .gt →
      ∃ k, Rational.ratCmp (evalA (iter + k) (denom * 3 ^ k)).min
        (evalB (iter + k) (denom * 3 ^ k)).max = .gt) ∧
    (neoprene_comp_loop evalA evalB mi iter denom = .ordering .lt →
      ∃ k, Rational.ratCmp (evalA (iter + k) (denom * 3 ^ k)).max
        (evalB (iter + k) (denom * 3 ^ k)).min = .lt) ∧
    ((∀ k, k ≤ mi + 1 - iter →
        Rational.ratCmp (evalA (iter + k) (denom * 3 ^ k)).min
          (evalB (iter + k) (denom * 3 ^ k)).max ≠ .gt ∧
        Rational.ratCmp (evalA (iter + k) (denom * 3 ^ k)).max
          (evalB (iter + k) (denom * 3 ^ k)).min ≠ .lt) →
      neoprene_comp_loop evalA evalB mi iter denom = .failedToConverge) := by
  intro n
  induction n with
  | zero =>
    intro evalA evalB mi iter denom hn
    rw [neoprene_comp_loop]
    by_cases h1 : Rational.ratCmp (evalA iter denom).min (evalB iter denom).max = .gt
    · simp only [if_pos h1]
      refine ⟨?_, ?_, ?_, ?_⟩
      · intro o h; injection h with h'; subst h'; simp
      · intro _; exact ⟨0, by simpa using h1⟩
      · intro h; injection h with h'; cases h'
      · intro hns; exact absurd h1 (by simpa using (hns 0 (by omega)).1)
    · by_cases h2 : Rational.ratCmp (evalA iter denom).max (evalB iter denom).min = .lt
      · simp only [if_neg h1, if_pos h2]
        refine ⟨?_, ?_, ?_, ?_⟩
        · intro o h; injection h with h'; subst h'; simp
        · intro h; injection h with h'; cases h'
        · intro _; exact ⟨0, by simpa using h2⟩
        · intro hns; exact absurd h2 (by simpa using (hns 0 (by omega)).2)
      · have h3 : mi < iter := by omega
        simp only [if_neg h1, if_neg h2, if_pos h3]
        refine ⟨?_, ?_, ?_, fun _ => by trivial⟩
        · intro o h; cases h
        · intro h; cases h
        · intro h; cases h
  | succ n ihn =>
    intro evalA evalB mi iter denom hn
    rw [neoprene_comp_loop]
    by_cases h1 : Rational.ratCmp (evalA iter denom).min (evalB iter denom).max = .gt
    · simp only [if_pos h1]
      refine ⟨?_, ?_, ?_, ?_⟩
      · intro o h; injection h with h'; subst h'; simp
      · intro _; exact ⟨0, by simpa using h1⟩
      · intro h; injection h with h'; cases h'
      · intro hns; exact absurd h1 (by simpa using (hns 0 (by omega)).1)
    · by_cases h2 : Rational.ratCmp (evalA iter denom).max (evalB iter denom).min = .lt
      · simp only [if_neg h1, if_pos h2]
        refine ⟨?_, ?_, ?_, ?_⟩
        · intro o h; injection h with h'; subst h'; simp
        · intro h; injection h with h'; cases h'
        · intro _; exact ⟨0, by simpa using h2⟩
        · intro hns; exact absurd h2 (by simpa using (hns 0 (by omega)).2)
      · by_cases h3 : mi < iter
        · simp only [if_neg h1, if_neg h2, if_pos h3]
          refine ⟨?_, ?_, ?_, fun _ => by trivial⟩
          · intro o h; cases h
          · intro h; cases h
          · intro h; cases h
        · simp only [if_neg h1, if_neg h2, if_neg h3]
          obtain ⟨r1, r2, r3, r4⟩ :=
            ihn evalA evalB mi (iter + 1) (denom * 3) (by omega)
          refine ⟨r1, ?_, ?_, ?_⟩
          · intro h
            obtain ⟨k, hk⟩ := r2 h
            refine ⟨k + 1, ?_⟩
            have e1 : iter + (k + 1) = iter + 1 + k := by omega
            have e2 : denom * 3 ^ (k + 1) = denom * 3 * 3 ^ k := by ring
            rw [e1, e2]; exact hk
          · intro h
            obtain ⟨k, hk⟩ := r3 h
            refine ⟨k + 1, ?_⟩
            have e1 : iter + (k + 1) = iter + 1 + k := by omega
            have e2 : denom * 3 ^ (k + 1) = denom * 3 * 3 ^ k := by ring
            rw [e1, e2]; exact hk
          · intro hns
            apply r4
            intro k hk
            have e1 : iter + 1 + k = iter + (k + 1) := by omega
            have e2 : denom * 3 * 3 ^ k = denom * 3 ^ (k + 1) := by ring
            rw [e1, e2]
            exact hns (k + 1) (by omega)

/-- Claim C4 (confirmed): for every pair of evaluation functions — hence
for the evaluator applied to any two expressions A and B — `neoprene_comp`
returns `Greater` only when at some refinement step `k` (iteration
`3 + k`, denominator cap `6091 * 3^k`) the evaluated interval of A lies
strictly above that of B, `Less` only in the mirrored case, never returns
`Equal`, and returns `FailedToConverge` whenever no step up to the one at
which the iteration counter exceeds `max_iterations` separates the
intervals. -/
theorem C4_comp_driver (evalA evalB : Nat → Nat → RationalRange) (maxIterations : Nat) :
    (∀ o, neoprene_comp evalA evalB maxIterations = .ordering o → o ≠ .eq) ∧
    (neoprene_comp evalA evalB maxIterations = .ordering .gt →
      ∃ k, Rational.ratCmp (evalA (3 + k) (6091 * 3 ^ k)).min
        (evalB (3 + k) (6091 * 3 ^ k)).max = .gt) ∧
    (neoprene_comp evalA evalB maxIterations = .ordering .lt →
      ∃ k, Rational.ratCmp (evalA (3 + k) (6091 * 3 ^ k)).max
        (evalB (3 + k) (6091 * 3 ^ k)).min = .lt) ∧
    ((∀ k, k ≤ maxIterations + 1 - 3 →
        Rational.ratCmp (evalA (3 + k) (6091 * 3 ^ k)).min
          (evalB (3 + k) (6091 * 3 ^ k)).max ≠ .gt ∧
        Rational.ratCmp (evalA (3 + k) (6091 * 3 ^ k)).max
          (evalB (3 + k) (6091 * 3 ^ k)).min ≠ .lt) →
      neoprene_comp evalA evalB maxIterations = .failedToConverge) :=
  comp_loop_spec (maxIterations + 1 - 3) evalA evalB maxIterations 3 6091 (by omega)

/-- Witness for the C4 theorem: with both operands evaluating to the
constant interval `[1, 1]` (never separated) and `max_iterations = 3`, the
driver reports `FailedToConverge`; the no-separation hypothesis is checked
by evaluation. -/
theorem C4_comp_driver_witness :
    neoprene_comp (fun _ _ => ⟨⟨.Pos, 1, 1⟩, ⟨.Pos, 1, 1⟩⟩)
        (fun _ _ => ⟨⟨.Pos, 1, 1⟩, ⟨.Pos, 1, 1⟩⟩) 3 = .failedToConverge :=
  (C4_comp_driver (fun _ _ => ⟨⟨.Pos, 1, 1⟩, ⟨.Pos, 1, 1⟩⟩)
      (fun _ _ => ⟨⟨.Pos, 1, 1⟩, ⟨.Pos, 1, 1⟩⟩) 3).2.2.2
    (by intro k hk; exact ⟨by decide, by decide⟩)

theorem size_lt_sizeVec_of_mem {p : Rational × ByzNode} :
    ∀ {vec : List (Rational × ByzNode)}, p ∈ vec →
      ByzNode.size p.2 < ByzNode.sizeVec vec := by
  intro vec
  induction vec with
  | nil => intro h; cases h
  | cons q rest ih =>
    intro h
    rw [ByzNode.sizeVec]
    cases h with
    | head => omega
    | tail _ hm =>
      have := ih hm
      omega

/-- The fuel-indexed evaluator agrees with the evaluator whenever the fuel
exceeds the structural size of the node; in particular it never runs out
of fuel. -/
theorem byznodeF_adequate :
    ∀ (fuel : Nat) (node : ByzNode) (it : Nat), ByzNode.size node < fuel →
      neoprene_byznodeF fuel node it = toEvalResult (neoprene_byznode node it) := by
  intro fuel
  induction fuel with
  | zero =>
    intro node it h
    cases node <;> simp [ByzNode.size] at h
  | succ n ih =>
    intro node it h
    match node with
    | .transitiveConst c =>
      simp [neoprene_byznodeF, neoprene_byznode, toEvalResult]
    | .pow base exp =>
      have hb : ByzNode.size base < n := by
        rw [ByzNode.size] at h; omega
      rw [neoprene_byznodeF, neoprene_byznode, ih base it hb]
      cases neoprene_byznode base it with
      | some range => simp [toEvalResult]
      | none => simp [toEvalResult]
    | .add r vec =>
      have hvec : ∀ p ∈ vec, ByzNode.size p.2 < n := by
        intro p hp
        have h1 := size_lt_sizeVec_of_mem hp
        rw [ByzNode.size] at h
        omega
      clear h
      rw [neoprene_byznodeF, neoprene_byznode]
      generalize { min := r, max := r : RationalRange } = range
      induction vec generalizing range with
      | nil => simp [neoprene_add_loopF, neoprene_add_loop, toEvalResult]
      | cons p rest ihl =>
        rw [neoprene_add_loopF, neoprene_add_loop,
          ih p.2 it (hvec p (List.mem_cons_self p rest))]
        cases hbz : neoprene_byznode p.2 it with
        | some i_range =>
          simp only [toEvalResult]
          exact ihl (fun q hq => hvec q (List.mem_cons_of_mem p hq)) _
        | none => simp [toEvalResult]
    | .mul r vec =>
      have hvec : ∀ p ∈ vec, ByzNode.size p.2 < n := by
        intro p hp
        have h1 := size_lt_sizeVec_of_mem hp
        rw [ByzNode.size] at h
        omega
      clear h
      rw [neoprene_byznodeF, neoprene_byznode]
      generalize { min := r, max := r : RationalRange } = range
      induction vec generalizing range with
      | nil => simp [neoprene_mul_loopF, neoprene_mul_loop, toEvalResult]
      | cons p rest ihl =>
        rw [neoprene_mul_loopF, neoprene_mul_loop,
          ih p.2 it (hvec p (List.mem_cons_self p rest))]
        cases hbz : neoprene_byznode p.2 it with
        | some i_range =>
          simp only [toEvalResult]
          cases hp2 : neoprene_range_pow_raw i_range p.1 it with
          | some powed =>
            cases hm : RationalRange.mulAssign range powed with
            | some range' =>
              simp only [hm]
              exact ihl (fun q hq => hvec q (List.mem_cons_of_mem p hq)) range'
            | none => simp [hm, toEvalResult]
          | none => simp [hp2, toEvalResult]
        | none => simp [toEvalResult]

/-- Claim C10 (confirmed): the evaluator is total.  Run with the explicit
recursion-depth budget `size + 1` — one unit per descent into a subterm,
which is exactly the recursion structure of `neoprene_byznode` — the
fuel-indexed evaluator never exhausts its budget and coincides with
`neoprene_byznode`; every internal loop (the Gregory–Leibniz and factorial
summations, bounded by the iteration parameter, and the term-vector folds)
is a structurally bounded fold.  Evaluation always terminates, either with
an interval or with one of the modelled panics. -/
theorem C10_evaluator_terminates (node : ByzNode) (it : Nat) :
    neoprene_byznodeF (ByzNode.size node + 1) node it ≠ .outOfFuel ∧
      neoprene_byznodeF (ByzNode.size node + 1) node it
        = toEvalResult (neoprene_byznode node it) := by
  have h := byznodeF_adequate (ByzNode.size node + 1) node it (by omega)
  refine ⟨?_, h⟩
  rw [h]
  cases neoprene_byznode node it <;> simp [toEvalResult]

end NeopreneByzantine
